import Mathlib

/- Verification of the crator core: the dot-path JSON text extractor
   (struct Json in src/lib.rs) and the minimal spin-then-yield executor
   (fn execute in src/lib.rs). Text is modelled as List Char; the byte
   loop of the Rust code only dispatches on ASCII bytes, every one of
   which is a UTF-8 character boundary, so the character-level model is
   exact. Rust string slices that can be out of range are modelled with
   Option, where none stands for an index-out-of-range abort. -/

namespace Crator

/- The two brace characters, by code point (123 and 125). -/
def lcur : Char := Char.ofNat 123

def rcur : Char := Char.ofNat 125

/- Model of char::is_whitespace from Rust (the Unicode White_Space set),
   used by str::trim and str::trim_start. -/
def charIsWs (c : Char) : Bool :=
  decide (c.toNat = 32 ∨ (9 ≤ c.toNat ∧ c.toNat ≤ 13) ∨ c.toNat = 133 ∨ c.toNat = 160 ∨
    c.toNat = 5760 ∨ (8192 ≤ c.toNat ∧ c.toNat ≤ 8202) ∨ c.toNat = 8232 ∨ c.toNat = 8233 ∨
    c.toNat = 8239 ∨ c.toNat = 8287 ∨ c.toNat = 12288)

/- Model of u8::is_ascii_whitespace from Rust (space, tab, newline,
   form feed, carriage return), used inside the byte scan. -/
def asciiIsWs (c : Char) : Bool :=
  decide (c.toNat = 32 ∨ c.toNat = 9 ∨ c.toNat = 10 ∨ c.toNat = 12 ∨ c.toNat = 13)

/- str::trim_start. -/
def trimStart (l : List Char) : List Char := l.dropWhile charIsWs

/- Trailing-whitespace trim, the second half of str::trim. -/
def trimEnd (l : List Char) : List Char := (l.reverse.dropWhile charIsWs).reverse

/- str::trim. -/
def trim (l : List Char) : List Char := trimEnd (trimStart l)

/- str::trim_matches with an arbitrary character predicate: strips
   matching characters from both ends. -/
def trimMatches (p : Char → Bool) (l : List Char) : List Char :=
  ((l.dropWhile p).reverse.dropWhile p).reverse

/- The closure passed to trim_matches in the fallback branch of
   Json::slice_until_boundary. -/
def isDelim (c : Char) : Bool := decide (c = ',' ∨ c = rcur ∨ c = ']')

/- The sentinel text returned for an unresolved path. -/
def NA : List Char := ['N', '/', 'A']

/- str::find for a single character: index of the first occurrence. -/
def findChar (c : Char) : List Char → Option Nat
  | [] => none
  | x :: rest => if x = c then some 0 else (findChar c rest).map (fun n => n + 1)

/- str::find for a substring pattern: index of the first occurrence.
   The Rust code only searches for patterns that start with an ASCII
   quote, so byte indices and character indices agree. -/
def findSub (pat : List Char) : List Char → Option Nat
  | [] => if pat.isEmpty then some 0 else none
  | x :: rest =>
    if pat.isPrefixOf (x :: rest) then some 0
    else (findSub pat rest).map (fun n => n + 1)

/- The quoted-key pattern built by Json::get_key_value. -/
def keyPattern (key : List Char) : List Char := '"' :: key ++ ['"']

/- Two's-complement wrap of an i32 value: the result of any i32
   arithmetic in a release build, written with an explicit modulus.
   A debug build would abort at the first update whose wrap changes the
   value. -/
def wrap32 (x : Int) : Int := (x + 2147483648) % 4294967296 - 2147483648

/- n i32 increments in sequence, each wrapped: the value of a depth
   counter after consuming n consecutive opening delimiters. -/
def wrapIter : Nat → Int → Int
  | 0, d => d
  | n + 1, d => wrapIter n (wrap32 (d + 1))

/- The scan state of Json::slice_until_boundary: object depth, array
   depth and the inside-quotes flag. The depths are i32 in the source
   (inferred from the 0 literals at lib.rs line 117); they are modelled
   as Int with the explicit two's-complement wrap wrap32 applied at
   every update, matching release-build overflow semantics. -/
structure ScanSt where
  dObj : Int
  dArr : Int
  q : Bool
  deriving DecidableEq

/- Outcome of one iteration of the byte loop of slice_until_boundary:
   either continue with a new state or stop, returning the span scanned
   so far. -/
inductive StepRes where
  | stop : StepRes
  | cont : ScanSt → StepRes
  deriving DecidableEq

/- One iteration of the match in Json::slice_until_boundary, in source
   order. prev is the previous character (none at position zero), used
   for the escaped-quote test and for the position-positive test of the
   whitespace rule. -/
def scanStep (prev : Option Char) (c : Char) (st : ScanSt) : StepRes :=
  if c = '"' ∧ prev ≠ some '\\' then StepRes.cont ⟨st.dObj, st.dArr, !st.q⟩
  else if st.q then StepRes.cont st
  else if c = lcur then StepRes.cont ⟨wrap32 (st.dObj + 1), st.dArr, st.q⟩
  else if c = rcur then
    (if st.dObj = 0 then StepRes.stop else StepRes.cont ⟨wrap32 (st.dObj - 1), st.dArr, st.q⟩)
  else if c = '[' then StepRes.cont ⟨st.dObj, wrap32 (st.dArr + 1), st.q⟩
  else if c = ']' then
    (if st.dArr = 0 then StepRes.stop else StepRes.cont ⟨st.dObj, wrap32 (st.dArr - 1), st.q⟩)
  else if c = ',' ∧ st.dObj = 0 ∧ st.dArr = 0 then StepRes.stop
  else if st.dObj = 0 ∧ st.dArr = 0 ∧ asciiIsWs c ∧ prev.isSome then StepRes.stop
  else StepRes.cont st

/- The byte loop of Json::slice_until_boundary. acc holds the
   characters consumed so far in reverse, so acc.head? is the previous
   character and acc.reverse is the span consumed so far. On a stop the
   source returns that span trimmed; if the input runs out the loop
   falls through (modelled as none). -/
def scanB : List Char → ScanSt → List Char → Option (List Char)
  | _, _, [] => none
  | acc, st, c :: rest =>
    match scanStep acc.head? c st with
    | StepRes.stop => some (trim acc.reverse)
    | StepRes.cont st2 => scanB (c :: acc) st2 rest

namespace Json

/- Json::slice_until_boundary. -/
def slice_until_boundary (data : List Char) : List Char :=
  let s := trimStart data
  if s.isEmpty then []
  else
    match scanB [] ⟨0, 0, false⟩ s with
    | some r => r
    | none => trim (trimMatches isDelim s)

/- Json::get_key_value. -/
def get_key_value (body key : List Char) : List Char :=
  match findSub (keyPattern key) body with
  | some keyIdx =>
    let afterKey := body.drop (keyIdx + (keyPattern key).length)
    match findChar ':' afterKey with
    | some colonIdx => slice_until_boundary (afterKey.drop (colonIdx + 1))
    | none => NA
  | none => NA

/- The element loop of Json::get_array_index, counting down from the
   target index. The value returned by slice_until_boundary is always a
   prefix of the trimmed scope, so dropping its length matches the byte
   slice content[val_len..] of the source. -/
def arrayLoop : Nat → List Char → List Char
  | 0, content => slice_until_boundary (trimStart content)
  | t + 1, content =>
    let c := trimStart content
    let val := slice_until_boundary c
    if val.length = 0 then NA
    else
      let c2 := trimStart (c.drop val.length)
      if c2.head? = some ',' then arrayLoop t (c2.drop 1) else NA

/- Json::get_array_index. -/
def get_array_index (body : List Char) (target : Nat) : List Char :=
  let trimmed := trimStart body
  if trimmed.head? = some '[' then arrayLoop target (trimmed.drop 1) else NA

end Json

/- All digits test used by the integer FromStr models: at least one
   character and only ASCII decimal digits. -/
def allDigits (l : List Char) : Bool := !l.isEmpty && l.all (fun c => c.isDigit)

/- Numeric value of a list of ASCII decimal digits. -/
def digitsVal (l : List Char) : Nat := l.foldl (fun a c => a * 10 + (c.toNat - 48)) 0

/- Model of str::parse::<u64>: an optional leading plus sign, then one
   or more ASCII digits, with the 64-bit range check. -/
def parseU64? (l : List Char) : Option Nat :=
  let ds := match l with
    | '+' :: r => r
    | _ => l
  if allDigits ds then (if digitsVal ds < 2 ^ 64 then some (digitsVal ds) else none) else none

/- Model of str::parse::<usize> on the 64-bit targets the crate
   supports: identical to the u64 parse. -/
def parseUsize? (l : List Char) : Option Nat := parseU64? l

/- Model of str::parse::<i64>: optional sign, ASCII digits, 64-bit
   signed range check. -/
def parseI64? (l : List Char) : Option Int :=
  match l with
  | '-' :: r => if allDigits r ∧ digitsVal r ≤ 2 ^ 63 then some (-(digitsVal r : Int)) else none
  | '+' :: r => if allDigits r ∧ digitsVal r < 2 ^ 63 then some ((digitsVal r : Int)) else none
  | _ => if allDigits l ∧ digitsVal l < 2 ^ 63 then some ((digitsVal l : Int)) else none

/- ASCII lowercasing of one character. Models str::to_lowercase for the
   use in Json::extract_bool: the two sides agree on every input there,
   because no character outside the ASCII uppercase range lowercases to
   any of the four letters of the text true. -/
def toLowerChar (c : Char) : Char :=
  if 'A' ≤ c ∧ c ≤ 'Z' then Char.ofNat (c.toNat + 32) else c

/- Exponent suffix of the f64 grammar: empty, or an e marker with an
   optional sign and digits. -/
def parseExpPart? : List Char → Option Int
  | [] => some 0
  | c :: r =>
    if c = 'e' ∨ c = 'E' then
      match r with
      | '-' :: d => if allDigits d then some (-(digitsVal d : Int)) else none
      | '+' :: d => if allDigits d then some ((digitsVal d : Int)) else none
      | d => if allDigits d then some ((digitsVal d : Int)) else none
    else none

/- Mantissa-and-exponent part of the f64 grammar of str::parse::<f64>:
   digits, an optional point with optional fraction digits (at least one
   digit overall), and an optional exponent. Returns the mantissa digits
   as a natural number together with the decimal exponent. -/
def parseMantissa? (l : List Char) : Option (Nat × Int) :=
  let ip := l.takeWhile (fun c => c.isDigit)
  let r1 := l.dropWhile (fun c => c.isDigit)
  match r1 with
  | '.' :: r2 =>
    let fp := r2.takeWhile (fun c => c.isDigit)
    let r3 := r2.dropWhile (fun c => c.isDigit)
    if ip.isEmpty && fp.isEmpty then none
    else (parseExpPart? r3).map (fun e => (digitsVal (ip ++ fp), e - (fp.length : Int)))
  | _ =>
    if ip.isEmpty then none
    else (parseExpPart? r1).map (fun e => (digitsVal ip, e))

/- Unsigned part of the f64 parse: the case-insensitive special texts
   inf, infinity and nan, otherwise the decimal grammar. The conversion
   of the decimal to a binary double is delegated to the builtin
   Float.ofScientific; the Rust parser performs the same correctly
   rounded conversion. -/
def parseF64Abs? (l : List Char) : Option Float :=
  let low := l.map toLowerChar
  if low = ['i', 'n', 'f'] ∨ low = ['i', 'n', 'f', 'i', 'n', 'i', 't', 'y'] then
    some (1.0 / 0.0)
  else if low = ['n', 'a', 'n'] then some (0.0 / 0.0)
  else (parseMantissa? l).map (fun p =>
    if 0 ≤ p.2 then Float.ofScientific p.1 false p.2.toNat
    else Float.ofScientific p.1 true (-(p.2)).toNat)

/- Model of str::parse::<f64>: optional sign, then the unsigned part. -/
def parseF64? (l : List Char) : Option Float :=
  match l with
  | '-' :: r => (parseF64Abs? r).map (fun x => -x)
  | '+' :: r => parseF64Abs? r
  | _ => parseF64Abs? l

/- path.split on the dot character: every separator splits, adjacent
   and outer separators produce empty segments, the empty path yields
   one empty segment. -/
def splitDot : List Char → List (List Char)
  | [] => [[]]
  | c :: rest =>
    if c = '.' then [] :: splitDot rest
    else match splitDot rest with
      | [] => [[c]]
      | s :: ss => (c :: s) :: ss

namespace Json

/- One segment of the loop body of Json::extract: an integer segment is
   an array index lookup, any other segment is a key lookup. -/
def segLookup (cur part : List Char) : List Char :=
  match parseUsize? part with
  | some idx => get_array_index cur idx
  | none => get_key_value cur part

/- The final unquoting step of Json::extract. When the text starts and
   ends with a quote the source takes the byte slice [1..len-1]; for the
   one-character quote text that slice has its start after its end and
   the Rust program aborts, modelled as none. -/
def unquoteFinal (cur : List Char) : Option (List Char) :=
  if cur.head? = some '"' ∧ cur.getLast? = some '"' then
    (if 2 ≤ cur.length then some ((cur.drop 1).dropLast) else none)
  else some cur

/- The segment loop of Json::extract: any lookup that yields the
   sentinel returns the sentinel at once, otherwise the narrowed text
   becomes the scope of the next segment. -/
def extractLoop : List (List Char) → List Char → Option (List Char)
  | [], cur => unquoteFinal cur
  | part :: parts, cur =>
    let next := segLookup cur part
    if next = NA then some NA else extractLoop parts next

/- Json::extract over character lists. -/
def extractL (body path : List Char) : Option (List Char) :=
  extractLoop (splitDot path) body

/- Json::extract. none models the abort described at unquoteFinal. -/
def extract (body path : String) : Option String :=
  (extractL body.data path.data).map String.mk

/- Json::extract_int. -/
def extract_int (body path : String) : Option Int :=
  (extract body path).map (fun t => (parseI64? t.data).getD 0)

/- Json::extract_u64. -/
def extract_u64 (body path : String) : Option Nat :=
  (extract body path).map (fun t => (parseU64? t.data).getD 0)

/- Json::extract_float. -/
def extract_float (body path : String) : Option Float :=
  (extract body path).map (fun t => (parseF64? t.data).getD (0.0 : Float))

/- Json::extract_bool. -/
def extract_bool (body path : String) : Option Bool :=
  (extract body path).map (fun t => t.data.map toLowerChar == ['t', 'r', 'u', 'e'])

end Json

/- A future, observed through the executor: the result of its n-th poll
   under the no-op waker. The executor stops at the first Ready. -/
inductive Poll (α : Type) where
  | Ready : α → Poll α
  | Pending : Poll α

/- The two actions the executor takes on a pending poll: the spin hint
   or the yield of the scheduling quantum. -/
inductive EEvent where
  | spin : EEvent
  | yieldNow : EEvent
  deriving DecidableEq

/- The spin counter update of one pending iteration of execute: below
   the threshold of 150000 the counter is incremented after the spin
   hint, at the threshold the thread yields and the counter resets. -/
def execStep (spins : Nat) : Nat := if spins < 150000 then spins + 1 else 0

/- The poll loop of execute, instrumented with the list of pending-poll
   actions. i is the index of the next poll, spins the current counter.
   fuel bounds the number of polls; none models a run that has not
   finished within the bound (the source loops without bound). -/
def executeEvents {α : Type} (f : Nat → Poll α) : Nat → Nat → Nat → Option (α × Nat × List EEvent)
  | _, _, 0 => none
  | i, spins, fuel + 1 =>
    match f i with
    | Poll.Ready v => some (v, spins, [])
    | Poll.Pending =>
      if spins < 150000 then
        (executeEvents f (i + 1) (spins + 1) fuel).map
          (fun p => (p.1, p.2.1, EEvent.spin :: p.2.2))
      else
        (executeEvents f (i + 1) 0 fuel).map
          (fun p => (p.1, p.2.1, EEvent.yieldNow :: p.2.2))

/- fn execute, projected to the returned value. -/
def execute {α : Type} (f : Nat → Poll α) (fuel : Nat) : Option α :=
  (executeEvents f 0 0 fuel).map (fun p => p.1)

/- The spin counter iterated n times from s through pending polls. -/
def execIter : Nat → Nat → Nat
  | 0, s => s
  | n + 1, s => execIter n (execStep s)

/- The actions of n consecutive pending polls starting at counter s. -/
def execEvts : Nat → Nat → List EEvent
  | 0, _ => []
  | n + 1, s => (if s < 150000 then EEvent.spin else EEvent.yieldNow) :: execEvts n (execStep s)

/- The value of the spin counter of execute just before the n-th poll
   of the computation f. -/
def spinsSeq {α : Type} (f : Nat → Poll α) : Nat → Nat
  | 0 => 0
  | n + 1 =>
    match f n with
    | Poll.Ready _ => spinsSeq f n
    | Poll.Pending => execStep (spinsSeq f n)

/- A computation that is pending on every poll. -/
def pendForever : Nat → Poll Nat := fun _ => Poll.Pending

/- A computation that is pending for 400000 consecutive polls and then
   ready with the value 42. -/
def pend400k : Nat → Poll Nat :=
  fun n => if n < 400000 then Poll.Pending else Poll.Ready 42

/- Concrete bodies used by the spec examples. -/
def jsonA1 : String := "\x7b\"a\":1\x7d"

def body5a : String := "\x7b\"a\":\x7b\"b\":\x7b\"c\":5\x7d\x7d\x7d"

def body5b : String := "\x7b\"releases\":[\x7b\"v\":\"0.1\"\x7d,\x7b\"v\":\"0.2\"\x7d]\x7d"

def body6 : String := "\x7b\"k\":\"a,b\x7dc\"\x7d"

def naBody : String := "\x7b\"k\":\"N/A\"\x7d"

def bareNaBody : String := "\x7b\"k\":N/A\x7d"

def shadowBody : String := "\x7b\"a\":\x7b\"b\":\"nested\"\x7d,\"b\":\"y\"\x7d"

def emptyKeyBody : String := "\x7b\"\":1\x7d"

def loneQuoteBody : String := "[\" "

def arrPair : String := "[10,20]"

def arrEmpty : String := "[]"

def arrOne : String := "[5]"

/- JSON string escaping, used to describe the family of well-formed
   bodies in the statements about key lookup: a quote or backslash in
   the content is preceded by a backslash, every other character stands
   for itself. -/
def escapeJson : List Char → List Char
  | [] => []
  | c :: rest =>
    if c = '"' ∨ c = '\\' then '\\' :: c :: escapeJson rest else c :: escapeJson rest

/- The quoted JSON string literal denoting the given content. -/
def jsonStringLit (content : List Char) : List Char := '"' :: escapeJson content ++ ['"']

/- Helper lemmas about the executor. -/

lemma executeEvents_ready {α : Type} (f : Nat → Poll α) (v : α) :
    ∀ (n i spins fuel : Nat), (∀ m, m < n → f (i + m) = Poll.Pending) →
    f (i + n) = Poll.Ready v → n < fuel →
    executeEvents f i spins fuel = some (v, execIter n spins, execEvts n spins) := by
  intro n
  induction n with
  | zero =>
    intro i spins fuel _ hr hf
    cases fuel with
    | zero => exact absurd hf (by omega)
    | succ fuel =>
      simp only [executeEvents]
      rw [show f i = Poll.Ready v from hr]
      rfl
  | succ n ih =>
    intro i spins fuel hp hr hf
    cases fuel with
    | zero => exact absurd hf (by omega)
    | succ fuel =>
      have h0 : f i = Poll.Pending := by
        have := hp 0 (Nat.succ_pos n)
        simpa using this
      simp only [executeEvents]
      rw [h0]
      have hp2 : ∀ s : Nat, ∀ m, m < n → f (i + 1 + m) = Poll.Pending := by
        intro _ m hm
        have e : i + 1 + m = i + (m + 1) := by omega
        rw [e]
        exact hp (m + 1) (by omega)
      have hr2 : f (i + 1 + n) = Poll.Ready v := by
        have e : i + 1 + n = i + (n + 1) := by omega
        rw [e]
        exact hr
      by_cases hs : spins < 150000
      · rw [if_pos hs, ih (i + 1) (spins + 1) fuel (hp2 0) hr2 (by omega)]
        simp only [Option.map_some', execIter, execEvts, execStep, if_pos hs]
      · rw [if_neg hs, ih (i + 1) 0 fuel (hp2 0) hr2 (by omega)]
        simp only [Option.map_some', execIter, execEvts, execStep, if_neg hs]

lemma execIter_succ (n s : Nat) : execIter (n + 1) s = execStep (execIter n s) := by
  induction n generalizing s with
  | zero => rfl
  | succ n ih =>
    show execIter (n + 1) (execStep s) = execStep (execIter (n + 1) s)
    rw [ih (execStep s)]
    rfl

lemma execIter_mod (n : Nat) : execIter n 0 = n % 150001 := by
  induction n with
  | zero => rfl
  | succ n ih =>
    rw [execIter_succ, ih]
    simp only [execStep]
    split <;> omega

lemma execEvts_add (a b : Nat) : ∀ s, execEvts (a + b) s = execEvts a s ++ execEvts b (execIter a s) := by
  induction a with
  | zero =>
    intro s
    simp [execEvts, execIter]
  | succ a ih =>
    intro s
    rw [show a + 1 + b = (a + b) + 1 by omega]
    simp only [execEvts, execIter]
    rw [ih (execStep s)]
    simp [execEvts]

lemma spinsSeq_eq_execIter {α : Type} (f : Nat → Poll α) :
    ∀ n, (∀ m, m < n → f m = Poll.Pending) → spinsSeq f n = execIter n 0 := by
  intro n
  induction n with
  | zero => intro _; rfl
  | succ n ih =>
    intro h
    simp only [spinsSeq]
    rw [h n (by omega), ih (fun m hm => h m (by omega)), execIter_succ]

lemma spinsSeq_pendForever (n : Nat) : spinsSeq pendForever n = n % 150001 := by
  rw [spinsSeq_eq_execIter pendForever n (fun m _ => rfl), execIter_mod]

lemma spinsSeq_pend400k (n : Nat) (h : n ≤ 400000) : spinsSeq pend400k n = n % 150001 := by
  rw [spinsSeq_eq_execIter pend400k n ?_, execIter_mod]
  intro m hm
  simp only [pend400k]
  rw [if_pos (by omega)]

lemma count_es400k : 2 ≤ (execEvts 400000 0).count EEvent.yieldNow := by
  have e0 : execIter 150001 0 = 0 := by rw [execIter_mod]
  have h2 : execEvts 150001 0 = execEvts 150000 0 ++ [EEvent.yieldNow] := by
    rw [show (150001 : Nat) = 150000 + 1 by omega, execEvts_add]
    rw [show execIter 150000 0 = 150000 by rw [execIter_mod]]
    rw [show execEvts 1 150000 = [EEvent.yieldNow] by decide]
  have h1 : execEvts 400000 0 = execEvts 150001 0 ++ (execEvts 150001 0 ++ execEvts 99998 0) := by
    rw [show (400000 : Nat) = 150001 + 249999 by omega, execEvts_add, e0,
      show (249999 : Nat) = 150001 + 99998 by omega, execEvts_add, e0]
  rw [h1, h2]
  simp only [List.count_append]
  have hy : ([EEvent.yieldNow]).count EEvent.yieldNow = 1 := rfl
  omega

lemma spinsSeq_le {α : Type} (f : Nat → Poll α) (n : Nat) : spinsSeq f n ≤ 150000 := by
  induction n with
  | zero => exact Nat.zero_le _
  | succ n ih =>
    simp only [spinsSeq]
    cases hf : f n with
    | Ready v => exact ih
    | Pending =>
      simp only [execStep]
      split <;> omega

/-- C4 (amended): throughout every run of execute the spin counter stays in
the range 0 to 150000 inclusive, reaching the threshold value 150000 exactly
once per cycle; on each pending poll with the counter below the threshold the
executor spins and increments the counter by one, and on a pending poll at the
threshold it yields the thread and resets the counter to zero; a computation
pending for 400000 consecutive polls then ready completes correctly, crossing
the spin-to-yield threshold at least twice (at polls 150000 and 300001). -/
theorem c4_spin_yield :
    (∀ (α : Type) (f : Nat → Poll α) (n : Nat), spinsSeq f n ≤ 150000) ∧
    (∀ (α : Type) (f : Nat → Poll α) (n : Nat), f n = Poll.Pending →
      spinsSeq f n < 150000 → spinsSeq f (n + 1) = spinsSeq f n + 1) ∧
    (∀ (α : Type) (f : Nat → Poll α) (n : Nat), f n = Poll.Pending →
      ¬ spinsSeq f n < 150000 → spinsSeq f (n + 1) = 0) ∧
    (∃ es : List EEvent,
      executeEvents pend400k 0 0 400001 = some (42, spinsSeq pend400k 400000, es) ∧
      2 ≤ es.count EEvent.yieldNow) ∧
    spinsSeq pend400k 150000 = 150000 ∧ spinsSeq pend400k 300001 = 150000 := by
  refine ⟨fun α f n => spinsSeq_le f n, ?_, ?_, ?_, ?_, ?_⟩
  · intro α f n hf hs
    simp only [spinsSeq]
    rw [hf]
    simp [execStep, hs]
  · intro α f n hf hs
    simp only [spinsSeq]
    rw [hf]
    simp [execStep, hs]
  · refine ⟨execEvts 400000 0, ?_, count_es400k⟩
    have hp : ∀ m, m < 400000 → pend400k (0 + m) = Poll.Pending := by
      intro m hm
      simp only [pend400k, Nat.zero_add]
      rw [if_pos hm]
    have hr : pend400k (0 + 400000) = Poll.Ready 42 := by
      simp only [pend400k, Nat.zero_add]
      rw [if_neg (by omega)]
    rw [executeEvents_ready pend400k 42 400000 0 0 400001 hp hr (by omega)]
    rw [spinsSeq_pend400k 400000 (by omega), execIter_mod]
  · rw [spinsSeq_pend400k 150000 (by omega)]
  · rw [spinsSeq_pend400k 300001 (by omega)]

/-- C4 witness: instantiating the step rules of c4_spin_yield on the always
pending computation, at poll 0 (a spin increment) and at poll 150000 (a
yield that resets the counter to zero). -/
theorem c4_spin_yield_witness :
    spinsSeq pendForever 1 = spinsSeq pendForever 0 + 1 ∧ spinsSeq pendForever 150001 = 0 := by
  refine ⟨c4_spin_yield.2.1 Nat pendForever 0 rfl (by decide),
          c4_spin_yield.2.2.1 Nat pendForever 150000 rfl ?_⟩
  rw [spinsSeq_pendForever]
  decide

/-- C4 counterexample: on the always pending computation the spin counter of
execute reaches the value 150000 just before poll number 150000, so the claimed
strict invariant counter lt 150000 is false; the inclusive bound holds. -/
theorem c4_counterexample :
    spinsSeq pendForever 150000 = 150000 ∧ ¬ spinsSeq pendForever 150000 < 150000 := by
  refine ⟨?_, ?_⟩
  · rw [spinsSeq_pendForever]
  · rw [spinsSeq_pendForever]
    decide

/-- C9: for every computation whose poll sequence is pending up to poll n and
ready with value v at poll n, execute returns exactly v (given fuel to reach
that poll); a computation ready on the very first poll returns immediately with
the spin counter still zero and no spin or yield performed. -/
theorem c9_execute_result :
    (∀ (α : Type) (f : Nat → Poll α) (v : α) (n fuel : Nat),
      (∀ m, m < n → f m = Poll.Pending) → f n = Poll.Ready v → n < fuel →
      execute f fuel = some v) ∧
    (∀ (α : Type) (f : Nat → Poll α) (v : α) (fuel : Nat),
      f 0 = Poll.Ready v → executeEvents f 0 0 (fuel + 1) = some (v, 0, [])) := by
  constructor
  · intro α f v n fuel hp hr hf
    have hp2 : ∀ m, m < n → f (0 + m) = Poll.Pending := by
      intro m hm
      rw [Nat.zero_add]
      exact hp m hm
    have hr2 : f (0 + n) = Poll.Ready v := by
      rw [Nat.zero_add]
      exact hr
    unfold execute
    rw [executeEvents_ready f v n 0 0 fuel hp2 hr2 hf]
    rfl
  · intro α f v fuel h0
    simp only [executeEvents]
    rw [h0]

/- Helper lemmas about the boundary scanner. -/

lemma scanB_cons (acc : List Char) (st : ScanSt) (c : Char) (rest : List Char) :
    scanB acc st (c :: rest) =
      match scanStep acc.head? c st with
      | StepRes.stop => some (trim acc.reverse)
      | StepRes.cont st2 => scanB (c :: acc) st2 rest := rfl

lemma scanB_cont (acc : List Char) (st : ScanSt) (c : Char) (rest : List Char) (st2 : ScanSt)
    (h : scanStep acc.head? c st = StepRes.cont st2) :
    scanB acc st (c :: rest) = scanB (c :: acc) st2 rest := by
  rw [scanB_cons, h]

lemma scanB_stop (acc : List Char) (st : ScanSt) (c : Char) (rest : List Char)
    (h : scanStep acc.head? c st = StepRes.stop) :
    scanB acc st (c :: rest) = some (trim acc.reverse) := by
  rw [scanB_cons, h]

lemma scanStep_inq (prev : Option Char) (c : Char) (st : ScanSt)
    (hq : st.q = true) (hc : c ≠ '"') : scanStep prev c st = StepRes.cont st := by
  simp only [scanStep]
  rw [if_neg (fun h => hc h.1), if_pos hq]

lemma scanStep_escaped (c : Char) (st : ScanSt) (hq : st.q = true) :
    scanStep (some '\\') c st = StepRes.cont st := by
  by_cases hc : c = '"'
  · subst hc
    simp only [scanStep]
    rw [if_neg (fun h => h.2 rfl), if_pos hq]
  · exact scanStep_inq _ c st hq hc

lemma scanStep_toggle (prev : Option Char) (st : ScanSt) (h : prev ≠ some '\\') :
    scanStep prev '"' st = StepRes.cont ⟨st.dObj, st.dArr, !st.q⟩ := by
  simp only [scanStep]
  rw [if_pos ⟨trivial, h⟩]

lemma scanStep_rcur_stop (prev : Option Char) (st : ScanSt)
    (hq : st.q = false) (hd : st.dObj = 0) : scanStep prev rcur st = StepRes.stop := by
  simp only [scanStep]
  rw [if_neg (fun h => absurd h.1 (by decide)), if_neg (by simp [hq]),
    if_neg (by decide : ¬ rcur = lcur)]
  simp only [if_true]
  rw [if_pos hd]

lemma scanStep_rbrk_stop (prev : Option Char) (st : ScanSt)
    (hq : st.q = false) (hd : st.dArr = 0) : scanStep prev ']' st = StepRes.stop := by
  simp only [scanStep]
  rw [if_neg (fun h => absurd h.1 (by decide)), if_neg (by simp [hq]),
    if_neg (by decide : ¬ ']' = lcur), if_neg (by decide : ¬ ']' = rcur),
    if_neg (by decide : ¬ ']' = '[')]
  simp only [if_true]
  rw [if_pos hd]

lemma scanStep_comma_stop (prev : Option Char) (st : ScanSt)
    (hq : st.q = false) (h1 : st.dObj = 0) (h2 : st.dArr = 0) :
    scanStep prev ',' st = StepRes.stop := by
  simp only [scanStep]
  rw [if_neg (fun h => absurd h.1 (by decide)), if_neg (by simp [hq]),
    if_neg (by decide : ¬ ',' = lcur), if_neg (by decide : ¬ ',' = rcur),
    if_neg (by decide : ¬ ',' = '['), if_neg (by decide : ¬ ',' = ']')]
  rw [if_pos ⟨trivial, h1, h2⟩]

lemma scanStep_lcur (prev : Option Char) (st : ScanSt) (hq : st.q = false) :
    scanStep prev lcur st = StepRes.cont ⟨wrap32 (st.dObj + 1), st.dArr, st.q⟩ := by
  simp only [scanStep]
  rw [if_neg (fun h => absurd h.1 (by decide)), if_neg (by simp [hq])]
  simp only [if_true]

lemma scanB_replicate_lcur : ∀ (n : Nat) (acc : List Char) (d a : Int) (tail : List Char),
    scanB acc ⟨d, a, false⟩ (List.replicate n lcur ++ tail) =
      scanB (List.replicate n lcur ++ acc) ⟨wrapIter n d, a, false⟩ tail := by
  intro n
  induction n with
  | zero => intro acc d a tail; simp [wrapIter]
  | succ n ih =>
    intro acc d a tail
    rw [List.replicate_succ, List.cons_append,
      scanB_cont acc ⟨d, a, false⟩ lcur _ ⟨wrap32 (d + 1), a, false⟩
        (scanStep_lcur acc.head? ⟨d, a, false⟩ rfl),
      ih (lcur :: acc) (wrap32 (d + 1)) a tail]
    have hacc : List.replicate n lcur ++ (lcur :: acc) = lcur :: (List.replicate n lcur ++ acc) := by
      rw [← List.singleton_append, ← List.append_assoc, ← List.replicate_succ',
        List.replicate_succ, List.cons_append]
    rw [hacc]
    rfl

lemma wrap32_wrap (x k : Int) : wrap32 (wrap32 x + k) = wrap32 (x + k) := by
  simp only [wrap32]
  omega

lemma wrapIter_eq : ∀ (n : Nat) (d : Int), -2147483648 ≤ d → d < 2147483648 →
    wrapIter n d = wrap32 (d + (n : Int)) := by
  intro n
  induction n with
  | zero =>
    intro d h1 h2
    simp only [wrapIter, Nat.cast_zero, add_zero, wrap32]
    omega
  | succ n ih =>
    intro d h1 h2
    simp only [wrapIter]
    rw [ih (wrap32 (d + 1)) (by simp only [wrap32]; omega) (by simp only [wrap32]; omega),
      wrap32_wrap]
    congr 1
    push_cast
    ring

/-- C7 (amended): during boundary scanning, every continuing step from a state
with both depth counters in the i32-safe range 0 to 2147483646 keeps both
counters non-negative, and an unescaped closing brace seen at object depth
zero, or closing bracket at array depth zero, stops the scan and returns the
span consumed so far, instead of decrementing a counter below zero. The
unconditional invariant fails exactly at the i32 limit, where the counter
wraps (see the counterexample). -/
theorem c7_depth_invariant :
    (∀ (prev : Option Char) (c : Char) (st st' : ScanSt),
      0 ≤ st.dObj → st.dObj < 2147483647 → 0 ≤ st.dArr → st.dArr < 2147483647 →
      scanStep prev c st = StepRes.cont st' → 0 ≤ st'.dObj ∧ 0 ≤ st'.dArr) ∧
    (∀ (prev : Option Char) (st : ScanSt), st.q = false → st.dObj = 0 →
      scanStep prev rcur st = StepRes.stop) ∧
    (∀ (prev : Option Char) (st : ScanSt), st.q = false → st.dArr = 0 →
      scanStep prev ']' st = StepRes.stop) ∧
    (∀ (acc : List Char) (d2 : Int) (l : List Char),
      scanB acc ⟨0, d2, false⟩ (rcur :: l) = some (trim acc.reverse)) ∧
    (∀ (acc : List Char) (d1 : Int) (l : List Char),
      scanB acc ⟨d1, 0, false⟩ (']' :: l) = some (trim acc.reverse)) := by
  refine ⟨?_, scanStep_rcur_stop, scanStep_rbrk_stop, ?_, ?_⟩
  · intro prev c st st' h1 h2 h3 h4 hstep
    simp only [scanStep] at hstep
    split_ifs at hstep <;>
      first
      | exact StepRes.noConfusion hstep
      | (injection hstep with h; subst h; exact ⟨h1, h3⟩)
      | (injection hstep with h; subst h; refine ⟨?_, ?_⟩ <;> dsimp only <;>
          (try simp only [wrap32]) <;> omega)
  · intro acc d2 l
    rw [scanB_cons, scanStep_rcur_stop acc.head? ⟨0, d2, false⟩ rfl rfl]
  · intro acc d1 l
    rw [scanB_cons, scanStep_rbrk_stop acc.head? ⟨d1, 0, false⟩ rfl rfl]

/-- C7 witness: the step rules of c7_depth_invariant instantiated at depth
zero states: a closing brace and a closing bracket stop the scan, one concrete
scan that stops at a closing brace returning the consumed span, and the
preservation rule applied to an opening brace at depth zero. -/
theorem c7_depth_invariant_witness :
    scanStep none rcur ⟨0, 0, false⟩ = StepRes.stop ∧
    scanB ['5'] ⟨0, 0, false⟩ [rcur] = some ['5'] ∧
    (0 : Int) ≤ 1 ∧ (0 : Int) ≤ 0 := by
  refine ⟨c7_depth_invariant.2.1 none ⟨0, 0, false⟩ rfl rfl, ?_, ?_⟩
  · rw [c7_depth_invariant.2.2.2.1 ['5'] 0 []]
    decide
  · exact c7_depth_invariant.1 none lcur ⟨0, 0, false⟩ ⟨1, 0, false⟩ (by decide) (by decide)
      (by decide) (by decide) (by decide)

/-- C7 counterexample: the depth counters are i32, so the claimed unconditional
non-negativity fails: scanning two-to-the-31 consecutive opening braces from
the initial state brings the object depth counter to the negative value
-2147483648 (release-build wrap; a debug build aborts at that step), as the
unrolling of the scan on that input shows. -/
theorem c7_counterexample :
    scanB [] ⟨0, 0, false⟩ (List.replicate 2147483648 lcur ++ [lcur]) =
      scanB (List.replicate 2147483648 lcur) ⟨-2147483648, 0, false⟩ [lcur] ∧
    (-2147483648 : Int) < 0 := by
  constructor
  · have h := scanB_replicate_lcur 2147483648 [] 0 0 [lcur]
    rw [List.append_nil] at h
    rw [h, show wrapIter 2147483648 0 = -2147483648 by
      rw [wrapIter_eq 2147483648 0 (by omega) (by omega)]
      decide]
  · decide

/-- C6: boundary scanning consumes any character other than an unescaped quote
without changing the scan state while inside a quoted string, in particular
commas, braces, brackets and whitespace, and a quote preceded by a backslash
does not toggle the inside-quotes flag; hence the embedded comma and brace of
the concrete body are not treated as boundaries and the value is extracted
whole. -/
theorem c6_quoted_boundaries :
    (∀ (acc : List Char) (d1 d2 : Int) (l : List Char), acc.head? = some '\\' →
      scanB acc ⟨d1, d2, true⟩ ('"' :: l) = scanB ('"' :: acc) ⟨d1, d2, true⟩ l) ∧
    (∀ (acc : List Char) (d1 d2 : Int) (c : Char) (l : List Char), c ≠ '"' →
      scanB acc ⟨d1, d2, true⟩ (c :: l) = scanB (c :: acc) ⟨d1, d2, true⟩ l) ∧
    Json.extract body6 "k" = some "a,b\x7dc" := by
  refine ⟨?_, ?_, by decide⟩
  · intro acc d1 d2 l hprev
    rw [scanB_cons, hprev, scanStep_escaped '"' ⟨d1, d2, true⟩ rfl]
  · intro acc d1 d2 c l hc
    rw [scanB_cons, scanStep_inq acc.head? c ⟨d1, d2, true⟩ rfl hc]

/-- C6 witness: the two step rules of c6_quoted_boundaries applied after a
backslash and at a comma inside quotes; both scans continue to the end of the
input and fall through. -/
theorem c6_quoted_boundaries_witness :
    scanB ['\\'] ⟨0, 0, true⟩ ['"'] = none ∧ scanB ['x'] ⟨0, 0, true⟩ [','] = none := by
  constructor
  · rw [c6_quoted_boundaries.1 ['\\'] 0 0 [] rfl]
    rfl
  · rw [c6_quoted_boundaries.2.1 ['x'] 0 0 ',' [] (by decide)]
    rfl

/-- C9 witness: a computation that is ready with 7 on the first poll; execute
returns 7, with final spin counter zero and an empty action list. -/
theorem c9_execute_result_witness :
    execute (fun _ => Poll.Ready (7 : Nat)) 1 = some 7 ∧
    executeEvents (fun _ => Poll.Ready (7 : Nat)) 0 0 1 = some (7, 0, []) :=
  ⟨c9_execute_result.1 Nat _ 7 0 1 (fun m hm => absurd hm (Nat.not_lt_zero m)) rfl (by decide),
   c9_execute_result.2 Nat _ 7 0 rfl⟩

/- Lemmas about escapeJson. -/

lemma escapeJson_append (l1 l2 : List Char) :
    escapeJson (l1 ++ l2) = escapeJson l1 ++ escapeJson l2 := by
  induction l1 with
  | nil => rfl
  | cons c rest ih =>
    simp only [List.cons_append, escapeJson]
    split <;> simp [ih]

lemma escapeJson_last (l : List Char) (h : l.getLast? ≠ some '\\') :
    (escapeJson l).getLast? ≠ some '\\' := by
  rcases List.eq_nil_or_concat l with rfl | ⟨l2, c, rfl⟩
  · simp [escapeJson]
  · rw [List.concat_eq_append] at h ⊢
    have hc : c ≠ '\\' := by
      rw [List.getLast?_concat] at h
      intro e
      exact h (by rw [e])
    rw [escapeJson_append]
    by_cases hq : c = '"'
    · subst hq
      rw [show escapeJson ['"'] = ['\\', '"'] from rfl,
        show escapeJson l2 ++ ['\\', '"'] = (escapeJson l2 ++ ['\\']) ++ ['"'] by simp,
        List.getLast?_concat]
      decide
    · have he : escapeJson [c] = [c] := by
        simp only [escapeJson]
        rw [if_neg (by rintro (e | e); exacts [hq e, hc e])]
      rw [he, List.getLast?_concat]
      simp [hc]

/- Scanning straight through the escaped content of a quoted string: with
   the inside-quotes flag set, every character of the escaped text is
   consumed without a state change, because each quote in it is preceded
   by a backslash. -/
lemma scanRun_escaped (d1 d2 : Int) (content : List Char) :
    ∀ (tail acc : List Char),
    scanB acc ⟨d1, d2, true⟩ (escapeJson content ++ tail) =
      scanB ((escapeJson content).reverse ++ acc) ⟨d1, d2, true⟩ tail := by
  induction content with
  | nil => intro tail acc; simp [escapeJson]
  | cons c rest ih =>
    intro tail acc
    by_cases hc : c = '"' ∨ c = '\\'
    · rw [show escapeJson (c :: rest) = '\\' :: c :: escapeJson rest by
        simp only [escapeJson]; rw [if_pos hc]]
      rw [List.cons_append, List.cons_append,
        scanB_cont acc ⟨d1, d2, true⟩ '\\' _ ⟨d1, d2, true⟩
          (scanStep_inq acc.head? '\\' ⟨d1, d2, true⟩ rfl (by decide)),
        scanB_cont ('\\' :: acc) ⟨d1, d2, true⟩ c _ ⟨d1, d2, true⟩
          (scanStep_escaped c ⟨d1, d2, true⟩ rfl),
        ih tail (c :: '\\' :: acc)]
      congr 1
      simp
    · have hcq : c ≠ '"' := fun e => hc (Or.inl e)
      rw [show escapeJson (c :: rest) = c :: escapeJson rest by
        simp only [escapeJson]; rw [if_neg hc]]
      rw [List.cons_append,
        scanB_cont acc ⟨d1, d2, true⟩ c _ ⟨d1, d2, true⟩
          (scanStep_inq acc.head? c ⟨d1, d2, true⟩ rfl hcq),
        ih tail (c :: acc)]
      congr 1
      simp

lemma trim_quoted (l : List Char) : trim ('"' :: l ++ ['"']) = '"' :: l ++ ['"'] := by
  have h1 : trimStart ('"' :: l ++ ['"']) = '"' :: l ++ ['"'] := by
    simp only [trimStart, List.cons_append]
    rw [List.dropWhile_cons_of_neg (by decide)]
  have h2 : ('"' :: l ++ ['"']).reverse = '"' :: (l.reverse ++ ['"']) := by simp
  simp only [trim, trimEnd, h1, h2]
  rw [List.dropWhile_cons_of_neg (by decide), ← h2, List.reverse_reverse]

/- Boundary scanning of a quoted string literal followed by a delimiter:
   the whole literal with its quotes is the returned span. -/
lemma slice_quoted (content : List Char) (d : Char) (tail : List Char)
    (hlast : content.getLast? ≠ some '\\') (hd : d = ',' ∨ d = rcur ∨ d = ']') :
    Json.slice_until_boundary ('"' :: escapeJson content ++ '"' :: d :: tail) =
      '"' :: escapeJson content ++ ['"'] := by
  have hts : trimStart ('"' :: escapeJson content ++ '"' :: d :: tail) =
      '"' :: escapeJson content ++ '"' :: d :: tail := by
    simp only [trimStart, List.cons_append]
    rw [List.dropWhile_cons_of_neg (by decide)]
  have hprev : ((escapeJson content).reverse ++ ['"']).head? ≠ some '\\' := by
    by_cases he : escapeJson content = []
    · rw [he]
      decide
    · have hrev : (escapeJson content).reverse ≠ [] := by simpa using he
      obtain ⟨x, xs, hx⟩ := List.exists_cons_of_ne_nil hrev
      rw [hx, List.cons_append, List.head?_cons]
      have : (escapeJson content).getLast? = some x := by
        rw [← List.head?_reverse, hx, List.head?_cons]
      intro e
      exact escapeJson_last content hlast (by rw [this, ← e])
  simp only [Json.slice_until_boundary, hts]
  rw [if_neg (by simp), List.cons_append,
    scanB_cont [] ⟨0, 0, false⟩ '"' _ ⟨0, 0, true⟩ (scanStep_toggle none ⟨0, 0, false⟩ (by decide)),
    scanRun_escaped 0 0 content ('"' :: d :: tail) ['"'],
    scanB_cont _ ⟨0, 0, true⟩ '"' _ ⟨0, 0, false⟩ (scanStep_toggle _ ⟨0, 0, true⟩ hprev)]
  have hrev : ('"' :: ((escapeJson content).reverse ++ ['"'])).reverse =
      '"' :: escapeJson content ++ ['"'] := by simp
  rcases hd with rfl | rfl | rfl
  · rw [scanB_stop _ ⟨0, 0, false⟩ ',' tail (scanStep_comma_stop _ ⟨0, 0, false⟩ rfl rfl rfl),
      hrev, trim_quoted]
  · rw [scanB_stop _ ⟨0, 0, false⟩ rcur tail (scanStep_rcur_stop _ ⟨0, 0, false⟩ rfl rfl),
      hrev, trim_quoted]
  · rw [scanB_stop _ ⟨0, 0, false⟩ ']' tail (scanStep_rbrk_stop _ ⟨0, 0, false⟩ rfl rfl),
      hrev, trim_quoted]

/- Key lookup on a body laid out as prefix, quoted key, colon, value
   text, when the text search finds the pattern at the prefix length. -/
lemma get_key_value_at (pre key vtail : List Char)
    (hfind : findSub (keyPattern key) (pre ++ keyPattern key ++ ':' :: vtail) = some pre.length) :
    Json.get_key_value (pre ++ keyPattern key ++ ':' :: vtail) key =
      Json.slice_until_boundary vtail := by
  have hdrop : (pre ++ keyPattern key ++ ':' :: vtail).drop (pre.length + (keyPattern key).length) =
      ':' :: vtail := by
    rw [show pre ++ keyPattern key ++ ':' :: vtail = (pre ++ keyPattern key) ++ ':' :: vtail by
      simp, List.drop_left' (by simp)]
  simp only [Json.get_key_value, hfind]
  rw [hdrop, show findChar ':' (':' :: vtail) = some 0 by simp [findChar]]
  rfl

lemma splitDot_no_dot : ∀ (key : List Char), (∀ c, c ∈ key → c ≠ '.') → splitDot key = [key] := by
  intro key
  induction key with
  | nil => intro _; rfl
  | cons c rest ih =>
    intro h
    simp only [splitDot]
    rw [if_neg (h c (List.mem_cons_self c rest)), ih (fun d hd => h d (List.mem_cons_of_mem c hd))]

lemma unquoteFinal_quoted (cur : List Char) (h1 : cur.head? = some '"')
    (h2 : cur.getLast? = some '"') (h3 : 2 ≤ cur.length) :
    Json.unquoteFinal cur = some ((cur.drop 1).dropLast) := by
  simp only [Json.unquoteFinal]
  rw [if_pos ⟨h1, h2⟩, if_pos h3]

lemma extractLoop_nil_unquote (cur : List Char) (h1 : cur.head? = some '"')
    (h2 : cur.getLast? = some '"') (h3 : 2 ≤ cur.length) :
    Json.extractLoop [] cur = some ((cur.drop 1).dropLast) := by
  simp only [Json.extractLoop]
  exact unquoteFinal_quoted cur h1 h2 h3

/-- C2 (amended): for every body containing the quoted key followed by a colon
and a quoted string value, where the key has no dot and is not an array index,
the value content does not end with a backslash, the value is followed by a
comma or a closing brace, and the first occurrence of the quoted-key pattern is
that one, extract returns the value text with the surrounding quotes stripped;
and in general, whenever the final narrowed text has at least two characters
and starts and ends with a quote, extract removes exactly the first and the
last character before returning (the one-character quote text instead hits the
out-of-range slice recorded at C1). -/
theorem c2_extract_string_value :
    (∀ (pre post key content : List Char),
      (∀ c, c ∈ key → c ≠ '.') →
      parseUsize? key = none →
      content.getLast? ≠ some '\\' →
      (post.head? = some ',' ∨ post.head? = some rcur) →
      findSub (keyPattern key) (pre ++ keyPattern key ++ ':' :: (jsonStringLit content ++ post)) =
        some pre.length →
      Json.extractL (pre ++ keyPattern key ++ ':' :: (jsonStringLit content ++ post)) key =
        some (escapeJson content)) ∧
    (∀ cur : List Char, cur.head? = some '"' → cur.getLast? = some '"' → 2 ≤ cur.length →
      Json.extractLoop [] cur = some ((cur.drop 1).dropLast)) := by
  refine ⟨?_, extractLoop_nil_unquote⟩
  intro pre post key content hdot hnum hlast hpost hfind
  cases post with
  | nil => simp at hpost
  | cons d rest =>
    have hd : d = ',' ∨ d = rcur := by
      rcases hpost with h | h <;> [left; right] <;> exact Option.some.inj (by simpa using h)
    have hshape : jsonStringLit content ++ d :: rest =
        '"' :: escapeJson content ++ '"' :: d :: rest := by
      simp [jsonStringLit]
    simp only [Json.extractL, splitDot_no_dot key hdot]
    simp only [Json.extractLoop, Json.segLookup, hnum]
    rw [get_key_value_at pre key (jsonStringLit content ++ d :: rest) hfind, hshape,
      slice_quoted content d rest hlast (by rcases hd with rfl | rfl; exacts [Or.inl rfl, Or.inr (Or.inl rfl)])]
    rw [if_neg (by
      intro hna
      have := congrArg List.head? hna
      simp [NA] at this)]
    rw [unquoteFinal_quoted ('"' :: escapeJson content ++ ['"'])
      (by rw [List.cons_append, List.head?_cons])
      (by rw [List.getLast?_concat])
      (by simp)]
    rw [show ('"' :: escapeJson content ++ ['"']).drop 1 = escapeJson content ++ ['"'] from rfl,
      List.dropLast_concat]

/-- C2 witness: the amended key-lookup statement instantiated on the body that
spells the object with single key k and string value v, and the unquote rule on
a three-character quoted text. -/
theorem c2_extract_string_value_witness :
    Json.extractL ([lcur] ++ keyPattern ['k'] ++ ':' :: (jsonStringLit ['v'] ++ [rcur])) ['k'] =
      some ['v'] ∧
    Json.extractLoop [] ['"', 'x', '"'] = some ['x'] := by
  constructor
  · rw [c2_extract_string_value.1 [lcur] [rcur] ['k'] ['v'] (by decide) (by decide) (by decide)
      (Or.inr rfl) (by decide)]
    decide
  · rw [c2_extract_string_value.2 ['"', 'x', '"'] rfl rfl (by decide)]
    decide

/-- C2 counterexample: in the well-formed object with top-level string key b of
value y, the raw text search finds the same key name nested inside the value of
a first, so extract returns the nested value nested instead of y. -/
theorem c2_counterexample :
    Json.extract shadowBody "b" = some "nested" ∧ ("nested" : String) ≠ "y" := by decide

/-- C1: the claim that extraction never fails is contradicted by the code: on
this body the array lookup narrows the text to the one-character quote text,
which starts and ends with a quote, and the final slice from index 1 to index
0 is out of range, so the Rust program aborts instead of returning a String;
the model returns none there. -/
theorem c1_extract_aborts : Json.extract loneQuoteBody "0" = none := by decide

/-- C3 (amended): a sentinel result from any segment lookup makes extract
return the sentinel at once, whatever segments follow; a key whose quoted
pattern does not occur in the scope yields the sentinel; an integer segment on
a scope that does not start with an opening bracket after leading whitespace
yields the sentinel; array indexing is zero-based and an out-of-range index
yields the sentinel, except that index 0 applied to an empty array yields the
empty string rather than the sentinel. -/
theorem c3_failures :
    (∀ (part : List Char) (parts : List (List Char)) (cur : List Char),
      Json.segLookup cur part = NA → Json.extractLoop (part :: parts) cur = some NA) ∧
    (∀ (cur key : List Char), findSub (keyPattern key) cur = none →
      Json.get_key_value cur key = NA) ∧
    (∀ (cur : List Char) (idx : Nat), ¬ (trimStart cur).head? = some '[' →
      Json.get_array_index cur idx = NA) ∧
    Json.extract arrPair "1" = some "20" ∧
    Json.extract arrEmpty "1" = some "N/A" ∧
    Json.extract arrOne "3" = some "N/A" ∧
    Json.extract arrEmpty "0" = some "" := by
  refine ⟨?_, ?_, ?_, by decide, by decide, by decide, by decide⟩
  · intro part parts cur h
    simp [Json.extractLoop, h]
  · intro cur key h
    simp [Json.get_key_value, h]
  · intro cur idx h
    simp only [Json.get_array_index]
    rw [if_neg h]

/-- C3 witness: the three failure rules of c3_failures instantiated on a scope
of one character x, with a key q that does not occur and an index lookup on a
scope that is not an array. -/
theorem c3_failures_witness :
    Json.extractLoop [['q']] ['x'] = some NA ∧
    Json.get_key_value ['x'] ['q'] = NA ∧
    Json.get_array_index ['x'] 0 = NA :=
  ⟨c3_failures.1 ['q'] [] ['x'] (by decide), c3_failures.2.1 ['x'] ['q'] (by decide),
   c3_failures.2.2.1 ['x'] 0 (by decide)⟩

/-- C3 counterexample: the claim says every out-of-range index, including any
index into the empty array, and every empty segment yield the sentinel; but
index 0 into the empty array yields the empty string, and the empty segment on
a body that contains the empty quoted key yields that value. -/
theorem c3_counterexample :
    Json.extract arrEmpty "0" = some "" ∧ ("" : String) ≠ "N/A" ∧
    Json.extract emptyKeyBody "" = some "1" ∧ ("1" : String) ≠ "N/A" := by decide

/-- C5: the two dot-path examples of the spec: a three-level object path and a
path through an array of objects. -/
theorem c5_nested_paths :
    Json.extract body5a "a.b.c" = some "5" ∧
    Json.extract body5b "releases.1.v" = some "0.2" := by decide

/-- C8: each typed accessor applies the respective parse to the text that
extract returns, with zero as the default for a text that does not parse, and
extract_bool compares the lowercased text with true; on the missing path of the
spec example extract yields the sentinel and extract_int yields zero. -/
theorem c8_typed_accessors :
    (∀ (body path t : String), Json.extract body path = some t →
      Json.extract_int body path = some ((parseI64? t.data).getD 0) ∧
      Json.extract_u64 body path = some ((parseU64? t.data).getD 0) ∧
      Json.extract_float body path = some ((parseF64? t.data).getD (0.0 : Float)) ∧
      Json.extract_bool body path = some (t.data.map toLowerChar == ['t', 'r', 'u', 'e'])) ∧
    Json.extract jsonA1 "missing.path" = some "N/A" ∧
    Json.extract_int jsonA1 "missing.path" = some 0 := by
  refine ⟨?_, by decide, by decide⟩
  intro body path t h
  refine ⟨?_, ?_, ?_, ?_⟩ <;>
    simp [Json.extract_int, Json.extract_u64, Json.extract_float, Json.extract_bool, h]

/-- C8 witness: the accessor rules of c8_typed_accessors applied to the body
with key a and value 1: the integer accessor parses 1 and the boolean accessor
yields false. -/
theorem c8_typed_accessors_witness :
    Json.extract_int jsonA1 "a" = some 1 ∧ Json.extract_bool jsonA1 "a" = some false := by
  have h := c8_typed_accessors.1 jsonA1 "a" "1" (by decide)
  refine ⟨?_, ?_⟩
  · rw [h.1]
    decide
  · rw [h.2.2.2]
    decide

/-- C10: the genuine JSON string value N/A is extracted as exactly the
sentinel text, indistinguishable from the result of a failed lookup on the
same body; and when a segment lookup produces the bare text N/A at a non-final
segment, extraction aborts at once with the sentinel, whatever the rest of the
path is. -/
theorem c10_sentinel_collision :
    Json.extract naBody "k" = some "N/A" ∧
    Json.extract naBody "absent" = some "N/A" ∧
    (∀ rest : List Char, Json.extractL bareNaBody.data ('k' :: '.' :: rest) = some NA) := by
  refine ⟨by decide, by decide, ?_⟩
  intro rest
  have hsplit : splitDot ('k' :: '.' :: rest) = ['k'] :: splitDot rest := by
    simp [splitDot]
  simp only [Json.extractL, hsplit]
  have hseg : Json.segLookup bareNaBody.data ['k'] = NA := by decide
  simp [Json.extractLoop, hseg]

/-- C10 witness: the abort rule of c10_sentinel_collision applied to the
one-segment continuation x of the path. -/
theorem c10_sentinel_collision_witness :
    Json.extractL bareNaBody.data ['k', '.', 'x'] = some NA :=
  c10_sentinel_collision.2.2 ['x']

end Crator
